import Mathlib

/-!
Verification development for `flow_matching/solver/multimodal_solver.py`.

The solver integrates several data modalities (continuous or discrete)
forward over a shared time discretization.  This file gives a shallow
embedding of `MultimodalSolver.sample` and settles the claims about
its behavior.

Modelling conventions:
* machine floats become exact rationals (`ℚ`);
* a per-modality tensor becomes a flat list of its entries
  (`List ℚ` for continuous states, `List ℕ` for discrete token states);
* the external numeric primitives (`torch.softmax`, `torch.exp` and the
  categorical sampler from `flow_matching.utils`) are out of scope for
  the design (spec section 1 treats them as "given numeric utilities"),
  so the solver is parameterized over a `NumericPrims` bundle supplying
  them; theorems quantify over the bundle, concrete evaluations use an
  explicit instance;
* randomness is an explicit source passed to the solver (spec section 9
  asks for exactly that treatment), giving one record of uniform draws
  per (step, modality, coordinate);
* fallible code returns `Except SErr`, with one error constructor per
  Python exception class raised by the source.
-/

/-- Modality type tag: the `'type'` key of a modality configuration. -/
inductive MType where
  | continuous
  | discrete
deriving DecidableEq, Repr

/-- Output record of `path.scheduler(t)`: the interpolation coefficient
`alpha_t` and its time derivative `d_alpha_t` (the only fields the
solver reads). -/
structure SchedulerOutput where
  alpha_t : ℚ
  d_alpha_t : ℚ

/-- A `MixtureDiscreteProbPath`, consumed by the solver only through its
scheduler's output fields. -/
structure MixtureDiscreteProbPath where
  scheduler : ℚ → SchedulerOutput

/-- One modality configuration dictionary: the `'type'` tag and, for
discrete modalities, the `'path'` entry. -/
structure ModalityConfig where
  mtype : MType
  path : Option MixtureDiscreteProbPath := none

/-- The state tensor of one modality: real valued for continuous
modalities, token indices for discrete ones. -/
inductive MState where
  | cont (vals : List ℚ)
  | disc (vals : List ℕ)
deriving DecidableEq, Repr

/-- The model's output tensor for one modality: a velocity for a
continuous modality, per-coordinate vocabulary logits for a discrete
one. -/
inductive MOutput where
  | cont (velocity : List ℚ)
  | disc (logits : List (List ℚ))
deriving DecidableEq, Repr

/-- Errors raised by `sample`, one constructor per Python exception
class appearing in the source. -/
inductive SErr where
  | valueError
  | notImplementedError
  | assertionError
  | importError
  | nameError
  | typeError
  | keyError
deriving DecidableEq, Repr

/-- The `div_free` argument: a constant coefficient or a time dependent
function. -/
inductive DivFree where
  | const (c : ℚ)
  | func (f : ℚ → ℚ)

/-- The uniform draws consumed for one coordinate of a discrete modality
in one step: one for the terminal sample `x_1`, one for the jump
decision, one for the jump target. -/
structure CoordRand where
  rX1 : ℚ
  rJump : ℚ
  rNew : ℚ

/-- Random source: draws indexed by (step, modality, coordinate). -/
abbrev RandSource := ℕ → ℕ → ℕ → CoordRand

/-- External numeric primitives used by the solver, supplied by the
environment: `torch.softmax` over a logits row, the categorical sampler
(given unnormalized weights and a uniform draw), and `torch.exp`. -/
structure NumericPrims where
  softmax : List ℚ → List ℚ
  categorical : List ℚ → ℚ → ℕ
  exp : ℚ → ℚ

/-- The model callable: receives the per-modality states and the
per-modality time tensors (all equal to the current scalar time) and
returns one output per modality; `none` models a non-sequence return
value. -/
abbrev Model := List MState → List ℚ → Option (List MOutput)

/-- The solver object: model, modality configurations and optional
source distribution. -/
structure MultimodalSolver where
  model : Model
  modality_configs : List ModalityConfig
  source_distribution_p : Option (List ℚ) := none

/-- The result of `sample`: final states, or per-modality trajectories
when intermediates were requested. -/
inductive SampleResult where
  | final (states : List MState)
  | trajectories (trajs : List (List MState))
deriving DecidableEq, Repr

/-- `F.one_hot(x, num_classes := n)` as a rational vector. -/
def one_hot (x : ℕ) (n : ℕ) : List ℚ :=
  (List.range n).map (fun v => if v = x then 1 else 0)

/-- Line 257 of the source: the base jump-rate field
`u = d_k_t / (1 - k_t) * delta_1` for one coordinate whose terminal
sample is `x1`, over a vocabulary of size `vocab`. -/
def u_base (k_t d_k_t : ℚ) (vocab : ℕ) (x1 : ℕ) : List ℚ :=
  (one_hot x1 vocab).map (fun d => d_k_t / (1 - k_t) * d)

/-- Helper for `u_add_div_free`: adds the divergence-free correction of
lines 268-270 entrywise, carrying the absolute vocabulary index `v`. -/
def addTermFrom (c k_t d_k_t : ℚ) (p : List ℚ) (x1 : ℕ) : ℕ → List ℚ → List ℚ
  | _, [] => []
  | v, uv :: rest =>
      (uv + c * d_k_t / (k_t * (1 - k_t)) *
        ((1 - k_t) * p.getD v 0 + k_t * (if v = x1 then 1 else 0))) ::
      addTermFrom c k_t d_k_t p x1 (v + 1) rest

/-- Lines 259-270 of the source: the divergence-free part is added to
`u` only when the evaluated coefficient `c` satisfies `c > 0`; the
`none` branch for `p0` is unreachable in `sample` because a nonzero
`div_free` requires a source distribution before the loop starts. -/
def u_add_div_free (c k_t d_k_t : ℚ) (p0 : Option (List ℚ)) (x1 : ℕ)
    (u : List ℚ) : List ℚ :=
  if 0 < c then
    match p0 with
    | some p => addTermFrom c k_t d_k_t p x1 0 u
    | none => u
  else u

/-- Helper for `u_zero_self`: zeroes the entry whose absolute index
equals the current token value `xt`. -/
def zeroSelfFrom (xt : ℕ) : ℕ → List ℚ → List ℚ
  | _, [] => []
  | v, uv :: rest => (if v = xt then 0 else uv) :: zeroSelfFrom xt (v + 1) rest

/-- Lines 272-278 of the source: force `u = 0` at the vocabulary index
equal to the coordinate's current value `xt`
(`u = torch.where(delta_t.bool(), zeros, u)`). -/
def u_zero_self (xt : ℕ) (u : List ℚ) : List ℚ :=
  zeroSelfFrom xt 0 u

/-- The complete jump-rate row used by a non-final discrete step for one
coordinate: base field, optional divergence-free part, self-transition
zeroing (lines 254-278 of the source). -/
def discrete_rate (k_t d_k_t div_free_t : ℚ) (p0 : Option (List ℚ))
    (vocab : ℕ) (xt x1 : ℕ) : List ℚ :=
  u_zero_self xt (u_add_div_free div_free_t k_t d_k_t p0 x1 (u_base k_t d_k_t vocab x1))

/-- Lines 280-289 of the source for one coordinate: total outgoing
intensity, jump decision `rand < 1 - exp(-h * intensity)`, and on a jump
a categorical draw from the unnormalized rate row; otherwise the
coordinate keeps its value. -/
def discrete_coord_update (P : NumericPrims) (k_t d_k_t div_free_t : ℚ)
    (p0 : Option (List ℚ)) (vocab : ℕ) (h : ℚ) (xt x1 : ℕ) (r : CoordRand) : ℕ :=
  let u := discrete_rate k_t d_k_t div_free_t p0 vocab xt x1
  let intensity := u.sum
  if r.rJump < 1 - P.exp (-(h * intensity)) then P.categorical u r.rNew else xt

/-- Lines 230-231 of the source: per coordinate, sample
`x_1 ~ Categorical(softmax(model_output))`; the first argument is the
running coordinate index. -/
def x1_draws (P : NumericPrims) (rand : ℕ → CoordRand) : ℕ → List (List ℚ) → List ℕ
  | _, [] => []
  | c, row :: rest =>
      P.categorical (P.softmax row) (rand c).rX1 :: x1_draws P rand (c + 1) rest

/-- Applies `discrete_coord_update` to every coordinate of a discrete
modality state, pairing each current value with its terminal sample. -/
def coord_updates (P : NumericPrims) (k_t d_k_t div_free_t : ℚ)
    (p0 : Option (List ℚ)) (vocab : ℕ) (h : ℚ) (x1s : List ℕ)
    (rand : ℕ → CoordRand) : ℕ → List ℕ → List ℕ
  | _, [] => []
  | c, xt :: rest =>
      discrete_coord_update P k_t d_k_t div_free_t p0 vocab h xt (x1s.getD c 0) (rand c) ::
      coord_updates P k_t d_k_t div_free_t p0 vocab h x1s rand (c + 1) rest

/-- Evaluation of the `div_free` argument at the current time
(line 260-262 of the source). -/
def DivFree.eval (df : DivFree) (t : ℚ) : ℚ :=
  match df with
  | .const c => c
  | .func f => f t

/-- The check `not div_free == 0.0` of line 150: true for any callable
(a function never compares equal to the float `0.0`) and for a nonzero
constant. -/
def DivFree.nonzeroCheck (df : DivFree) : Bool :=
  match df with
  | .const c => c != 0
  | .func _ => true

/-- Lines 219-292 of the source: the update of one modality for one
step.  Continuous modalities take an Euler step; discrete modalities
draw `x_1`, collapse to it on the final step, and otherwise run the
jump-process update.  A state/output of the wrong kind is outside the
modelled tensor contract and leaves the state unchanged. -/
def update_modality (P : NumericPrims) (cfg : ModalityConfig) (df : DivFree)
    (p0 : Option (List ℚ)) (t h : ℚ) (isFinal : Bool) (rand : ℕ → CoordRand)
    (s : MState) (out : MOutput) : Except SErr MState :=
  match cfg.mtype with
  | .continuous =>
      match s, out with
      | .cont xs, .cont vel =>
          .ok (.cont (List.zipWith (fun x w => x + h * w) xs vel))
      | _, _ => .ok s
  | .discrete =>
      match s, out with
      | .disc xs, .disc logits =>
          let x1 := x1_draws P rand 0 logits
          if isFinal then
            .ok (.disc x1)
          else
            let vocab := (logits.getD 0 []).length
            let proceed : Except SErr MState :=
              match cfg.path with
              | none => .error .keyError
              | some path =>
                  let so := path.scheduler t
                  .ok (.disc (coord_updates P so.alpha_t so.d_alpha_t (df.eval t)
                        p0 vocab h x1 rand 0 xs))
            match p0 with
            | some p => if p.length ≠ vocab then .error .assertionError else proceed
            | none => proceed
      | _, _ => .ok s

/-- Applies the per-modality updates of one step in configuration order
(the `for idx, config in enumerate(self.modality_configs)` loop); the
running index `k` selects this modality's random draws. -/
def update_all (P : NumericPrims) (df : DivFree) (p0 : Option (List ℚ))
    (t h : ℚ) (isFinal : Bool) (randi : ℕ → ℕ → CoordRand) :
    ℕ → List ModalityConfig → List MState → List MOutput → Except SErr (List MState)
  | _, [], _, _ => .ok []
  | _, _ :: _, [], _ => .ok []
  | _, _ :: _, _ :: _, [] => .ok []
  | k, cfg :: cfgs, s :: states, out :: outs => do
      let s1 ← update_modality P cfg df p0 t h isFinal (randi k) s out
      let rest ← update_all P df p0 t h isFinal randi (k + 1) cfgs states outs
      pure (s1 :: rest)

/-- Appends one snapshot per modality to the recorded trajectories
(lines 296-299 of the source). -/
def append_states : List (List MState) → List MState → List (List MState)
  | tr :: trs, s :: rest => (tr ++ [s]) :: append_states trs rest
  | trs, _ => trs

/-- The main loop of `sample` (lines 205-304): for each remaining step
index, build the shared time and step size from `t_discretization`,
invoke the model once, check the output contract, apply every
modality's update, and record a snapshot when the advanced time lies in
the (possibly nearest-snapped) requested grid. -/
def run_steps (P : NumericPrims) (cfgs : List ModalityConfig) (df : DivFree)
    (p0 : Option (List ℚ)) (model : Model) (rand : RandSource)
    (t_disc : List ℚ) (n_steps : ℕ) (record : Bool) (grid : List ℚ) :
    List ℕ → List MState → List (List MState) →
    Except SErr (List MState × List (List MState))
  | [], states, inters => .ok (states, inters)
  | i :: rest, states, inters =>
      let t := t_disc.getD i 0
      let h := t_disc.getD (i + 1) 0 - t
      match model states (List.replicate states.length t) with
      | none => .error .typeError
      | some outs =>
          if outs.length = states.length then
            match update_all P df p0 t h (i == n_steps - 1) (rand i) 0 cfgs states outs with
            | .error e => .error e
            | .ok states1 =>
                let inters1 :=
                  if record ∧ t_disc.getD (i + 1) 0 ∈ grid then
                    append_states inters states1
                  else inters
                run_steps P cfgs df p0 model rand t_disc n_steps record grid
                  rest states1 inters1
          else .error .typeError

/-- Stable insertion of index `i` into an ascending (by value) index
list; helper for `argsort`. -/
def insertSorted (l : List ℚ) (i : ℕ) : List ℕ → List ℕ
  | [] => [i]
  | j :: rest =>
      if l.getD i 0 < l.getD j 0 then i :: j :: rest
      else j :: insertSorted l i rest

/-- `torch.argsort(time_grid)` (line 180 of the source): the indices of
the grid sorted by ascending value. -/
def argsort (l : List ℚ) : List ℕ :=
  (List.range l.length).foldr (insertSorted l) []

/-- Modelled from the spec: `get_nearest_times` lives in
`flow_matching/solver/utils.py`, which is not part of the given source;
spec section 4.1 says it computes, for every time in the caller's
original `time_grid`, the nearest point in `t_discretization`.  The
first nearest point is taken on ties. -/
def nearest (t_disc : List ℚ) (g : ℚ) : ℚ :=
  t_disc.foldl (fun best t => if |g - t| < |g - best| then t else best) t_disc.headI

/-- Modelled from the spec: snaps every requested time to the nearest
discretization point (line 182 of the source). -/
def get_nearest_times (time_grid t_disc : List ℚ) : List ℚ :=
  time_grid.map (nearest t_disc)

/-- Lines 160-176 of the source: the time discretization.  Without a
step size it is the caller's grid with `len - 1` steps; with a step
size it is `ceil((t_final - t_init)/step_size)` uniform points from
`t_init` followed by `t_final` exactly, after asserting that the
interval is longer than the step size. -/
def discretize (time_grid : List ℚ) (step_size : Option ℚ) :
    Except SErr (List ℚ × ℕ) :=
  match step_size with
  | none => .ok (time_grid, time_grid.length - 1)
  | some ss =>
      let t_init := time_grid.headI
      let t_final := time_grid.getLastD 0
      if ss < t_final - t_init then
        let n_steps := (⌈(t_final - t_init) / ss⌉).toNat
        .ok ((List.range n_steps).map (fun (i : ℕ) => t_init + ss * (i : ℚ)) ++ [t_final], n_steps)
      else .error .assertionError

/-- `MultimodalSolver.sample` (lines 98-315 of the source).  Argument
order follows the Python signature; `P`, `rand` and `tqdmAvailable`
supply the external numeric utilities, the random source and the
availability of the optional progress display.  When `verbose` is
requested with `step_size = None` the progress bar constructor reads
`t_final`, a variable assigned only in the fixed-step branch, so that
path raises a `NameError`. -/
def MultimodalSolver.sample (P : NumericPrims) (S : MultimodalSolver)
    (rand : RandSource) (tqdmAvailable : Bool)
    (x_init : List MState) (step_size : Option ℚ) (div_free : DivFree)
    (method : String) (time_grid : List ℚ)
    (return_intermediates enable_grad verbose : Bool) :
    Except SErr SampleResult :=
  if x_init.length ≠ S.modality_configs.length then .error .valueError
  else if method ≠ "euler" then .error .notImplementedError
  else if div_free.nonzeroCheck ∧ S.source_distribution_p = none then
    .error .assertionError
  else
    match discretize time_grid step_size with
    | .error e => .error e
    | .ok (t_disc, n_steps) =>
        let grid :=
          if return_intermediates ∧ step_size.isSome then
            get_nearest_times time_grid t_disc
          else time_grid
        if verbose ∧ ¬tqdmAvailable then .error .importError
        else if verbose ∧ step_size.isNone then .error .nameError
        else
          match run_steps P S.modality_configs div_free S.source_distribution_p
              S.model rand t_disc n_steps return_intermediates grid
              (List.range n_steps) x_init
              (if return_intermediates then x_init.map (fun x => [x]) else []) with
          | .error e => .error e
          | .ok (states, inters) =>
              if return_intermediates then
                if step_size.isNone then .ok (.trajectories inters)
                else
                  .ok (.trajectories (inters.map (fun tr =>
                    (argsort time_grid).map (fun i => tr.getD i (.cont [])))))
              else .ok (.final states)

instance {α β : Type} [DecidableEq α] [DecidableEq β] : DecidableEq (Except α β) :=
  fun a b =>
    match a, b with
    | .ok x, .ok y => decidable_of_iff (x = y) (by simp)
    | .error e, .error f => decidable_of_iff (e = f) (by simp)
    | .ok _, .error _ => isFalse (by simp)
    | .error _, .ok _ => isFalse (by simp)

/-- A concrete instantiation of the external numeric primitives, used
only to evaluate the solver on explicit inputs (any instantiation
would do for those evaluations). -/
def evalPrims : NumericPrims :=
  { softmax := fun row => row.map (fun _ => 1 / row.length)
    categorical := fun _ _ => 0
    exp := fun x => 1 + x }

/-- A concrete random source for explicit evaluations. -/
def wRand : RandSource := fun _ _ _ => ⟨1, 1, 1⟩

/-- A solver with one continuous modality whose model always returns
the constant velocity `v`. -/
def contSolver (v : ℚ) : MultimodalSolver :=
  { model := fun _ _ => some [.cont [v]]
    modality_configs := [{ mtype := .continuous }] }

/-- Entry `i` of a zeroed rate row, relative to the starting absolute
index `s`: the entry whose absolute index hits `xt` is zero, all others
pass through. -/
theorem zeroSelfFrom_getD (xt : ℕ) :
    ∀ (u : List ℚ) (s i : ℕ),
      (zeroSelfFrom xt s u).getD i 0 = if s + i = xt then 0 else u.getD i 0 := by
  intro u
  induction u with
  | nil =>
      intro s i
      simp [zeroSelfFrom]
  | cons uv rest ih =>
      intro s i
      cases i with
      | zero => simp [zeroSelfFrom]
      | succ j =>
          simp only [zeroSelfFrom, List.getD_cons_succ]
          rw [ih (s + 1) j]
          have : s + 1 + j = s + (j + 1) := by omega
          rw [this]

/-- Entry `i` of the divergence-free-corrected row, relative to the
starting absolute index `s`: each in-range entry gains the correction
term at its absolute index. -/
theorem addTermFrom_getD (c k d : ℚ) (p : List ℚ) (x1 : ℕ) :
    ∀ (u : List ℚ) (s i : ℕ), i < u.length →
      (addTermFrom c k d p x1 s u).getD i 0 =
        u.getD i 0 + c * d / (k * (1 - k)) *
          ((1 - k) * p.getD (s + i) 0 + k * (if s + i = x1 then 1 else 0)) := by
  intro u
  induction u with
  | nil =>
      intro s i hi
      simp at hi
  | cons uv rest ih =>
      intro s i hi
      cases i with
      | zero => simp [addTermFrom]
      | succ j =>
          simp only [addTermFrom, List.getD_cons_succ]
          rw [ih (s + 1) j (by simpa using hi)]
          have : s + 1 + j = s + (j + 1) := by omega
          rw [this]

/-- Uniform discretization point `i` (for `i < n_steps`) equals
`t_init + step_size * i`. -/
theorem tdisc_getD_of_lt (t_init t_final ss : ℚ) (n i : ℕ) (hi : i < n) :
    (((List.range n).map (fun (j : ℕ) => t_init + ss * (j : ℚ))) ++ [t_final]).getD i 0 =
      t_init + ss * (i : ℚ) := by
  have hlen : i < ((List.range n).map (fun (j : ℕ) => t_init + ss * (j : ℚ))).length := by
    rw [List.length_map, List.length_range]; exact hi
  rw [List.getD_append _ _ _ _ hlen]
  rw [List.getD_eq_getElem _ _ hlen]
  rw [List.getElem_map]
  rw [List.getElem_range]

/-- The last discretization point (index `n_steps`) equals `t_final`
exactly. -/
theorem tdisc_getD_last (t_init t_final ss : ℚ) (n : ℕ) :
    (((List.range n).map (fun (j : ℕ) => t_init + ss * (j : ℚ))) ++ [t_final]).getD n 0 = t_final := by
  rw [List.getD_eq_getElem _ _ (by simp)]
  rw [List.getElem_append_right (by simp)]
  simp

/-- C6: for every call to `sample` with `step_size = None`, the time
discretization used by the loop equals the caller's `time_grid` exactly
and the number of steps equals `len(time_grid) - 1` (lines 160-163 of
the source, consumed unchanged by the loop). -/
theorem discretize_none_is_time_grid (time_grid : List ℚ) :
    discretize time_grid none = .ok (time_grid, time_grid.length - 1) := rfl

/-- Shared description of the fixed-step discretization: point count,
uniform points and exact final point. -/
theorem discretize_some_spec (time_grid : List ℚ) (ss : ℚ)
    (h : ss < time_grid.getLastD 0 - time_grid.headI) :
    ∃ t_disc n_steps,
      discretize time_grid (some ss) = .ok (t_disc, n_steps) ∧
      n_steps = (⌈(time_grid.getLastD 0 - time_grid.headI) / ss⌉).toNat ∧
      t_disc.length = n_steps + 1 ∧
      (∀ i, i < n_steps → t_disc.getD i 0 = time_grid.headI + ss * (i : ℚ)) ∧
      t_disc.getD n_steps 0 = time_grid.getLastD 0 := by
  have hd : discretize time_grid (some ss) =
      .ok ((List.range ((⌈(time_grid.getLastD 0 - time_grid.headI) / ss⌉).toNat)).map
             (fun (i : ℕ) => time_grid.headI + ss * (i : ℚ)) ++ [time_grid.getLastD 0],
           (⌈(time_grid.getLastD 0 - time_grid.headI) / ss⌉).toNat) := by
    simp only [discretize]
    rw [if_pos h]
  refine ⟨_, _, hd, rfl, ?_, ?_, ?_⟩
  · rw [List.length_append, List.length_map, List.length_range]
    rfl
  · intro i hi
    exact tdisc_getD_of_lt _ _ _ _ _ hi
  · exact tdisc_getD_last _ _ _ _

/-- C7: with a numeric step size smaller than the interval, the
discretization has `ceil((t_final - t_init)/step_size)` uniform points
`t_init + i * step_size` followed by `t_final` exactly as the last
point, even when the interval is not an integer multiple of the step
size. -/
theorem discretize_fixed_step (time_grid : List ℚ) (ss : ℚ)
    (h : ss < time_grid.getLastD 0 - time_grid.headI) :
    ∃ t_disc n_steps,
      discretize time_grid (some ss) = .ok (t_disc, n_steps) ∧
      n_steps = (⌈(time_grid.getLastD 0 - time_grid.headI) / ss⌉).toNat ∧
      t_disc.length = n_steps + 1 ∧
      (∀ i, i < n_steps → t_disc.getD i 0 = time_grid.headI + ss * (i : ℚ)) ∧
      t_disc.getD n_steps 0 = time_grid.getLastD 0 :=
  discretize_some_spec time_grid ss h

/-- Concrete instantiation of `discretize_fixed_step`: grid `[0, 1]`
with step size `3/10` (the interval is not a multiple of the step). -/
theorem discretize_fixed_step_witness :
    ∃ t_disc n_steps,
      discretize [(0:ℚ), 1] (some (3/10)) = .ok (t_disc, n_steps) ∧
      n_steps = (⌈(([(0:ℚ), 1].getLastD 0) - ([(0:ℚ), 1].headI)) / (3/10)⌉).toNat ∧
      t_disc.length = n_steps + 1 ∧
      (∀ i, i < n_steps → t_disc.getD i 0 = [(0:ℚ), 1].headI + (3/10) * (i : ℚ)) ∧
      t_disc.getD n_steps 0 = [(0:ℚ), 1].getLastD 0 :=
  discretize_fixed_step [(0:ℚ), 1] (3/10) (by norm_num)

/-- C5: after the self-transition zeroing, the rate row used by every
non-final discrete step assigns rate exactly 0 to the coordinate's
current value `xt`, and leaves every other vocabulary entry of the
(divergence-free-corrected) field unchanged, so the outgoing intensity
never includes a self-transition. -/
theorem discrete_rate_no_self_transition (k_t d_k_t div_free_t : ℚ)
    (p0 : Option (List ℚ)) (vocab xt x1 : ℕ) :
    (discrete_rate k_t d_k_t div_free_t p0 vocab xt x1).getD xt 0 = 0 ∧
    ∀ v, v ≠ xt →
      (discrete_rate k_t d_k_t div_free_t p0 vocab xt x1).getD v 0 =
        (u_add_div_free div_free_t k_t d_k_t p0 x1 (u_base k_t d_k_t vocab x1)).getD v 0 := by
  constructor
  · rw [discrete_rate, u_zero_self, zeroSelfFrom_getD]
    simp
  · intro v hv
    rw [discrete_rate, u_zero_self, zeroSelfFrom_getD]
    simp [hv]

/-- Concrete instantiation of `discrete_rate_no_self_transition` at
`k_t = 1/2`, `d_k_t = 1`, vocabulary 3, current value 2, terminal
sample 2: the self-transition entry is zero and entry 1 is the
pre-zeroing value. -/
theorem discrete_rate_no_self_transition_witness :
    (discrete_rate (1/2) 1 0 none 3 2 2).getD 2 0 = 0 ∧
    (discrete_rate (1/2) 1 0 none 3 2 2).getD 1 0 =
      (u_add_div_free 0 (1/2) 1 none 2 (u_base (1/2) 1 3 2)).getD 1 0 :=
  ⟨(discrete_rate_no_self_transition (1/2) 1 0 none 3 2 2).1,
   (discrete_rate_no_self_transition (1/2) 1 0 none 3 2 2).2 1 (by decide)⟩

/-- C4: on the final step, a discrete modality's state is set exactly
to the categorical draw `x_1` from `softmax(model_output)` (the
`x1_draws` composition), independent of the current state, the path and
its schedule coefficients, the divergence-free coefficient, the source
distribution, the time and the step size. -/
theorem discrete_final_step_collapse (P : NumericPrims)
    (cfg cfg' : ModalityConfig) (df df' : DivFree)
    (p0 p0' : Option (List ℚ)) (t t' h h' : ℚ) (rand : ℕ → CoordRand)
    (xs xs' : List ℕ) (logits : List (List ℚ))
    (hc : cfg.mtype = .discrete) (hc' : cfg'.mtype = .discrete) :
    update_modality P cfg df p0 t h true rand (.disc xs) (.disc logits)
      = .ok (.disc (x1_draws P rand 0 logits)) ∧
    update_modality P cfg df p0 t h true rand (.disc xs) (.disc logits)
      = update_modality P cfg' df' p0' t' h' true rand (.disc xs') (.disc logits) := by
  rw [update_modality, update_modality, hc, hc']
  exact ⟨rfl, rfl⟩

/-- Concrete instantiation of `discrete_final_step_collapse`: two
different discrete configurations, times and coefficients produce the
same final-step collapse to the terminal draw. -/
theorem discrete_final_step_collapse_witness :
    update_modality evalPrims { mtype := .discrete } (.const 0) none 0 (1/2) true
        (wRand 0 0) (.disc [0]) (.disc [[1, 2]])
      = .ok (.disc (x1_draws evalPrims (wRand 0 0) 0 [[1, 2]])) ∧
    update_modality evalPrims { mtype := .discrete } (.const 0) none 0 (1/2) true
        (wRand 0 0) (.disc [0]) (.disc [[1, 2]])
      = update_modality evalPrims { mtype := .discrete, path := none } (.const 1)
          (some [1/2, 1/2]) 1 (1/4) true (wRand 0 0) (.disc [1]) (.disc [[1, 2]]) :=
  discrete_final_step_collapse evalPrims { mtype := .discrete }
    { mtype := .discrete, path := none } (.const 0) (.const 1) none (some [1/2, 1/2])
    0 1 (1/2) (1/4) (wRand 0 0) [0] [1] [[1, 2]] rfl rfl

/-- C2 (amended): on a non-final discrete step, whenever the evaluated
divergence-free coefficient is strictly positive and a source
distribution `p` is set, every in-range entry of the rate field gains
exactly the spec's correction term
`c * d_k_t/(k_t*(1-k_t)) * ((1-k_t)*p + k_t*onehot(x_1))` before the
self-transition zeroing; a negative coefficient adds nothing. -/
theorem div_free_term_added_when_positive (c k_t d_k_t : ℚ) (p : List ℚ)
    (x1 : ℕ) (u : List ℚ) (hpos : 0 < c) :
    ∀ v, v < u.length →
      (u_add_div_free c k_t d_k_t (some p) x1 u).getD v 0 =
        u.getD v 0 + c * d_k_t / (k_t * (1 - k_t)) *
          ((1 - k_t) * p.getD v 0 + k_t * (if v = x1 then 1 else 0)) := by
  intro v hv
  rw [u_add_div_free, if_pos hpos]
  have := addTermFrom_getD c k_t d_k_t p x1 u 0 v hv
  simpa using this

/-- Concrete instantiation of `div_free_term_added_when_positive` with
coefficient `1`, `k_t = 1/2`, `d_k_t = 1`, source `[1/2, 1/2]`,
terminal sample 0, over the base field for a vocabulary of 2. -/
theorem div_free_term_added_when_positive_witness :
    (u_add_div_free 1 (1/2) 1 (some [1/2, 1/2]) 0 (u_base (1/2) 1 2 0)).getD 0 0 =
      (u_base (1/2) 1 2 0).getD 0 0 + 1 * 1 / ((1/2) * (1 - 1/2)) *
        ((1 - 1/2) * ([(1:ℚ)/2, 1/2].getD 0 0) + (1/2) * (if 0 = 0 then 1 else 0)) :=
  div_free_term_added_when_positive 1 (1/2) 1 [1/2, 1/2] 0 (u_base (1/2) 1 2 0)
    (by norm_num) 0 (by with_unfolding_all decide)

/-- C2 counterexample: with the nonzero (negative) constant coefficient
`-1` and a source distribution configured, the code adds nothing to the
rate field (the guard is `div_free_t > 0`, not `div_free_t != 0`), so
the claimed sum differs from the computed field at vocabulary index 0. -/
theorem div_free_nonzero_negative_term_not_added :
    u_add_div_free (-1) (1/2) 1 (some [1/2, 1/2]) 0 (u_base (1/2) 1 2 0)
      = u_base (1/2) 1 2 0 ∧
    (u_add_div_free (-1) (1/2) 1 (some [1/2, 1/2]) 0 (u_base (1/2) 1 2 0)).getD 0 0
      ≠ (u_base (1/2) 1 2 0).getD 0 0 + (-1) * 1 / ((1/2) * (1 - 1/2)) *
          ((1 - 1/2) * ([(1:ℚ)/2, 1/2].getD 0 0) + (1/2) * (if 0 = 0 then 1 else 0)) := by
  with_unfolding_all decide

/-- The model at the given state and time violates the output contract:
it returns a non-sequence (`none`) or a sequence whose length differs
from the number of modalities. -/
def bad_output (model : Model) (states : List MState) (t : ℚ) : Prop :=
  model states (List.replicate states.length t) = none ∨
  ∃ outs, model states (List.replicate states.length t) = some outs ∧
    outs.length ≠ states.length

/-- C9: at any step whose model output violates the contract, the loop
fails immediately with the type error, uniformly in the configurations,
coefficients, source distribution, random source, recording mode and
remaining steps — so no modality's update for that step (nor any later
step) is applied. -/
theorem run_steps_bad_model_output (P : NumericPrims) (cfgs : List ModalityConfig)
    (df : DivFree) (p0 : Option (List ℚ)) (model : Model) (rand : RandSource)
    (t_disc : List ℚ) (n_steps : ℕ) (record : Bool) (grid : List ℚ)
    (i : ℕ) (rest : List ℕ) (states : List MState) (inters : List (List MState))
    (hbad : bad_output model states (t_disc.getD i 0)) :
    run_steps P cfgs df p0 model rand t_disc n_steps record grid
      (i :: rest) states inters = .error .typeError := by
  rw [run_steps]
  rcases hbad with hnone | ⟨outs, houts, hlen⟩
  · rw [hnone]
  · rw [houts]
    simp [hlen]

/-- Concrete instantiation of `run_steps_bad_model_output`: a model
returning an empty sequence for one modality fails the first step with
the type error. -/
theorem run_steps_bad_model_output_witness :
    run_steps evalPrims [{ mtype := .continuous }] (.const 0) none
      (fun _ _ => some []) wRand [0, 1] 1 false [] [0] [.cont [0]] []
      = .error .typeError :=
  run_steps_bad_model_output evalPrims [{ mtype := .continuous }] (.const 0) none
    (fun _ _ => some []) wRand [0, 1] 1 false [] 0 [] [.cont [0]] []
    (Or.inr ⟨[], rfl, by decide⟩)

/-- One continuous modality stepped with a constant-velocity model
accumulates exactly the telescoping sum of the step sizes: running the
steps `i, i+1, ..., i+k-1` moves the value by
`(t_disc[i+k] - t_disc[i]) * v`. -/
theorem run_steps_const_velocity (P : NumericPrims) (cfg : ModalityConfig)
    (df : DivFree) (p0 : Option (List ℚ)) (model : Model) (rand : RandSource)
    (v : ℚ) (t_disc : List ℚ) (n_steps : ℕ) (grid : List ℚ)
    (hc : cfg.mtype = .continuous)
    (hm : ∀ s t, model s t = some [.cont [v]]) :
    ∀ (k i : ℕ) (x : ℚ) (inters : List (List MState)),
      run_steps P [cfg] df p0 model rand t_disc n_steps false grid
        (List.range' i k) [.cont [x]] inters
        = .ok ([.cont [x + (t_disc.getD (i + k) 0 - t_disc.getD i 0) * v]], inters) := by
  intro k
  induction k with
  | zero =>
      intro i x inters
      simp [run_steps]
  | succ k ih =>
      intro i x inters
      rw [List.range'_succ]
      rw [run_steps]
      rw [hm]
      simp only [List.length_cons, List.length_nil]
      rw [if_pos trivial]
      rw [update_all, update_modality, hc]
      simp only [Bind.bind, Except.bind, pure, Except.pure, List.zipWith,
        Bool.false_eq_true, false_and, if_false]
      simp only [update_all]
      rw [ih (i + 1) (x + (t_disc.getD (i + 1) 0 - t_disc.getD i 0) * v) inters]
      have harith : x + (t_disc.getD (i + 1) 0 - t_disc.getD i 0) * v +
          (t_disc.getD (i + 1 + k) 0 - t_disc.getD (i + 1) 0) * v =
          x + (t_disc.getD (i + (k + 1)) 0 - t_disc.getD i 0) * v := by
        have : i + 1 + k = i + (k + 1) := by omega
        rw [this]; ring
      rw [harith]

/-- C8: each continuous step is exactly `x + h * velocity` with no
clamping, so a single continuous modality with a constant model
velocity `v`, integrated over the grid `[0, 1]` with any admissible
step size, ends exactly at `x0 + v` — the per-step increments
telescope over the interval. -/
theorem sample_constant_velocity_telescopes (P : NumericPrims)
    (S : MultimodalSolver) (rand : RandSource) (tq : Bool)
    (cfg : ModalityConfig) (x0 v ss : ℚ) (eg : Bool)
    (hcfg : S.modality_configs = [cfg]) (hc : cfg.mtype = .continuous)
    (hm : ∀ s t, S.model s t = some [.cont [v]])
    (h0 : 0 < ss) (h1 : ss < 1) :
    MultimodalSolver.sample P S rand tq [.cont [x0]] (some ss) (.const 0) "euler"
      [0, 1] false eg false = .ok (.final [.cont [x0 + v]]) := by
  have e1 : ([0, 1] : List ℚ).headI = 0 := rfl
  have e2 : ([0, 1] : List ℚ).getLastD 0 = 1 := rfl
  obtain ⟨t_disc, n_steps, hdisc, hn_eq, hlen, hgetD, hlast⟩ :=
    discretize_some_spec [0, 1] ss (by rw [e1, e2]; linarith)
  have hceil : 0 < ⌈(([0, 1] : List ℚ).getLastD 0 - ([0, 1] : List ℚ).headI) / ss⌉ := by
    rw [Int.ceil_pos, e1, e2, sub_zero]
    positivity
  have hn : 0 < n_steps := by rw [hn_eq]; omega
  rw [MultimodalSolver.sample]
  rw [if_neg (by rw [hcfg]; simp)]
  rw [if_neg (by simp)]
  rw [if_neg (by simp [DivFree.nonzeroCheck])]
  simp only [hdisc]
  simp only [Option.isSome_some, Option.isNone_some, Bool.false_eq_true, false_and,
    and_false, if_false, Bool.false_and]
  rw [hcfg]
  rw [List.range_eq_range']
  rw [run_steps_const_velocity P cfg (.const 0) S.source_distribution_p S.model rand v
      t_disc n_steps _ hc hm n_steps 0 x0 []]
  have hg0 : t_disc.getD 0 0 = 0 := by
    have := hgetD 0 hn
    rw [this, e1]
    norm_num
  have hgn : t_disc.getD (0 + n_steps) 0 = 1 := by
    rw [Nat.zero_add, hlast, e2]
  rw [hg0, hgn]
  norm_num

/-- Concrete instantiation of `sample_constant_velocity_telescopes`:
the spec scenario with `x0 = 0`, constant velocity `2` and step size
`1/2` over `[0, 1]` ends at `0 + 2`. -/
theorem sample_constant_velocity_telescopes_witness :
    MultimodalSolver.sample evalPrims (contSolver 2) wRand true [.cont [0]]
      (some (1/2)) (.const 0) "euler" [0, 1] false false false
      = .ok (.final [.cont [0 + 2]]) :=
  sample_constant_velocity_telescopes evalPrims (contSolver 2) wRand true
    { mtype := .continuous } 0 2 (1/2) false rfl rfl (fun _ _ => rfl)
    (by norm_num) (by norm_num)

set_option maxRecDepth 40000 in
/-- C1 counterexample: one continuous modality with constant velocity 1
started at 0 (so the state at time `t` is exactly `t`), caller grid
`[0, 1/2, 7/10, 3/10, 1]`, step size `1/10`.  The execution-ordered
snapshots are at times `0, 3/10, 1/2, 7/10, 1`; the code indexes them
directly with `argsort(time_grid) = [0, 3, 1, 2, 4]` and returns the
snapshots at times `0, 7/10, 3/10, 1/2, 1` — not the caller's requested
order `0, 1/2, 7/10, 3/10, 1`. -/
theorem sample_trajectory_not_caller_order :
    MultimodalSolver.sample evalPrims (contSolver 1) wRand true
      [.cont [0]] (some (1/10)) (.const 0) "euler" [0, 1/2, 7/10, 3/10, 1]
      true false false
      = .ok (.trajectories
          [[.cont [0], .cont [7/10], .cont [3/10], .cont [1/2], .cont [1]]]) ∧
    MultimodalSolver.sample evalPrims (contSolver 1) wRand true
      [.cont [0]] (some (1/10)) (.const 0) "euler" [0, 1/2, 7/10, 3/10, 1]
      true false false
      ≠ .ok (.trajectories
          [[.cont [0], .cont [1/2], .cont [7/10], .cont [3/10], .cont [1]]]) := by
  constructor
  · with_unfolding_all decide
  · with_unfolding_all decide

/-- C1 (amended): for every call with a numeric step size and
`return_intermediates=True` whose prelude checks and loop succeed, the
returned trajectory of each modality is the execution-ordered snapshot
list indexed directly by the ascending `argsort` permutation of the
caller's grid (entry `j` is the snapshot at position `argsort(grid)[j]`);
this restores the caller's original order only when that permutation is
its own inverse (for example already-sorted or reverse-sorted grids),
not for every permutation of the grid. -/
theorem sample_trajectory_reorder_is_argsort (P : NumericPrims)
    (S : MultimodalSolver) (rand : RandSource) (tq : Bool)
    (x_init : List MState) (ss : ℚ) (df : DivFree) (tg : List ℚ) (eg : Bool)
    (t_disc : List ℚ) (n_steps : ℕ) (states : List MState)
    (inters : List (List MState))
    (hlen : x_init.length = S.modality_configs.length)
    (hdf : ¬(df.nonzeroCheck = true ∧ S.source_distribution_p = none))
    (hdisc : discretize tg (some ss) = .ok (t_disc, n_steps))
    (hrun : run_steps P S.modality_configs df S.source_distribution_p S.model rand
        t_disc n_steps true (get_nearest_times tg t_disc) (List.range n_steps)
        x_init (x_init.map (fun x => [x])) = .ok (states, inters)) :
    MultimodalSolver.sample P S rand tq x_init (some ss) df "euler" tg true eg false
      = .ok (.trajectories (inters.map (fun tr =>
          (argsort tg).map (fun i => tr.getD i (.cont []))))) := by
  rw [MultimodalSolver.sample]
  rw [if_neg (by simp [hlen])]
  rw [if_neg (by simp)]
  rw [if_neg hdf]
  simp only [hdisc]
  simp only [Option.isSome_some, Option.isNone_some, Bool.false_eq_true, false_and,
    and_false, if_false, Bool.false_and, if_true, and_true, true_and, if_pos trivial]
  simp only [hrun]

set_option maxRecDepth 40000 in
/-- Concrete instantiation of `sample_trajectory_reorder_is_argsort` on
the sorted grid `[0, 1/2, 1]` with step size `1/2`: every hypothesis is
discharged by evaluation and the trajectory equals the argsort-indexed
snapshot list. -/
theorem sample_trajectory_reorder_is_argsort_witness :
    MultimodalSolver.sample evalPrims (contSolver 1) wRand true [.cont [0]]
      (some (1/2)) (.const 0) "euler" [0, 1/2, 1] true false false
      = .ok (.trajectories
          ([[.cont [0], .cont [1/2], .cont [1]]].map (fun tr =>
            (argsort [0, 1/2, 1]).map (fun i => tr.getD i (.cont []))))) :=
  sample_trajectory_reorder_is_argsort evalPrims (contSolver 1) wRand true
    [.cont [0]] (1/2) (.const 0) [0, 1/2, 1] false
    [0, 1/2, 1] 2 [.cont [1]] [[.cont [0], .cont [1/2], .cont [1]]]
    rfl (by simp [DivFree.nonzeroCheck]) (by with_unfolding_all decide)
    (by with_unfolding_all decide)

set_option maxRecDepth 40000 in
/-- C3 (code bug): with `step_size=None` the variable `t_final` is
assigned only in the fixed-step branch, yet `verbose=True` constructs
the progress bar with `tqdm(total=t_final)` (line 200), so a call that
succeeds with `verbose=False` raises a `NameError` with `verbose=True`
even though `tqdm` is available.  With a numeric step size the progress
display changes nothing: the same call with `verbose` on and off
returns identical results. -/
theorem verbose_nameError_when_step_size_none :
    MultimodalSolver.sample evalPrims (contSolver 1) wRand true
      [.cont [0]] none (.const 0) "euler" [0, 1] false false false
      = .ok (.final [.cont [1]]) ∧
    MultimodalSolver.sample evalPrims (contSolver 1) wRand true
      [.cont [0]] none (.const 0) "euler" [0, 1] false false true
      = .error .nameError ∧
    MultimodalSolver.sample evalPrims (contSolver 1) wRand true
      [.cont [0]] (some (1/2)) (.const 0) "euler" [0, 1] false false true
      = MultimodalSolver.sample evalPrims (contSolver 1) wRand true
          [.cont [0]] (some (1/2)) (.const 0) "euler" [0, 1] false false false := by
  refine ⟨?_, ?_, ?_⟩
  · with_unfolding_all decide
  · with_unfolding_all decide
  · with_unfolding_all decide

/-- Tensor memory: buffer contents indexed by address, plus an
allocation bound (every address at or above `next` is free).  This
refines the aliasing structure of `sample`: Python tensors are buffers,
`x.clone()` allocates, `states[idx] = ...` rebinds a list slot to a new
tensor, and `states[idx][mask] = ...` writes a buffer in place. -/
structure Mem where
  buf : ℕ → MState
  next : ℕ

/-- Writes the buffer at address `a` in place. -/
def Mem.write (m : Mem) (a : ℕ) (v : MState) : Mem :=
  ⟨fun b => if b = a then v else m.buf b, m.next⟩

/-- Allocates a fresh buffer holding `v`, returning the new memory and
the fresh address. -/
def Mem.alloc (m : Mem) (v : MState) : Mem × ℕ :=
  (⟨fun b => if b = m.next then v else m.buf b, m.next + 1⟩, m.next)

/-- Line 186 of the source:
`states = [(x if enable_grad else x.clone()) for x in x_init]` — the
working references alias the caller's tensors under `enable_grad` and
are fresh clones otherwise. -/
def init_refs (enable_grad : Bool) : Mem → List ℕ → Mem × List ℕ
  | m, [] => (m, [])
  | m, a :: rest =>
      if enable_grad then
        let p := init_refs enable_grad m rest
        (p.1, a :: p.2)
      else
        let p := m.alloc (m.buf a)
        let q := init_refs enable_grad p.1 rest
        (q.1, p.2 :: q.2)

/-- Lines 187-191 of the source: the initial trajectory entry per
modality is the caller's tensor under `enable_grad`, else a clone. -/
def init_inter_refs (enable_grad : Bool) : Mem → List ℕ → Mem × List (List ℕ)
  | m, [] => (m, [])
  | m, a :: rest =>
      if enable_grad then
        let p := init_inter_refs enable_grad m rest
        (p.1, [a] :: p.2)
      else
        let p := m.alloc (m.buf a)
        let q := init_inter_refs enable_grad p.1 rest
        (q.1, [p.2] :: q.2)

/-- One modality's step on the memory: the new value comes from
`update_modality`; a continuous update (`states[idx] = states[idx] +
h * v`) and the final-step discrete collapse (`states[idx] = x_1`)
rebind the slot to a freshly allocated tensor, while a non-final
discrete update (`states[idx][mask_jump] = ...`) writes the working
buffer in place. -/
def heap_update_modality (P : NumericPrims) (cfg : ModalityConfig) (df : DivFree)
    (p0 : Option (List ℚ)) (t h : ℚ) (isFinal : Bool) (rand : ℕ → CoordRand)
    (m : Mem) (r : ℕ) (out : MOutput) : Mem × Except SErr ℕ :=
  match update_modality P cfg df p0 t h isFinal rand (m.buf r) out with
  | .error e => (m, .error e)
  | .ok v =>
      match cfg.mtype with
      | .continuous =>
          let p := m.alloc v
          (p.1, .ok p.2)
      | .discrete =>
          if isFinal then
            let p := m.alloc v
            (p.1, .ok p.2)
          else (m.write r v, .ok r)

/-- The per-modality loop of one step over the memory. -/
def heap_update_all (P : NumericPrims) (df : DivFree) (p0 : Option (List ℚ))
    (t h : ℚ) (isFinal : Bool) (randi : ℕ → ℕ → CoordRand) :
    ℕ → Mem → List ModalityConfig → List ℕ → List MOutput →
    Mem × Except SErr (List ℕ)
  | _, m, [], _, _ => (m, .ok [])
  | _, m, _ :: _, [], _ => (m, .ok [])
  | _, m, _ :: _, _ :: _, [] => (m, .ok [])
  | k, m, cfg :: cfgs, r :: refs, out :: outs =>
      match heap_update_modality P cfg df p0 t h isFinal (randi k) m r out with
      | (m1, .error e) => (m1, .error e)
      | (m1, .ok r1) =>
          match heap_update_all P df p0 t h isFinal randi (k + 1) m1 cfgs refs outs with
          | (m2, .error e) => (m2, .error e)
          | (m2, .ok rs) => (m2, .ok (r1 :: rs))

/-- Lines 296-299 of the source: appends one snapshot per modality,
aliasing the state under `enable_grad` and cloning it otherwise. -/
def heap_record (enable_grad : Bool) : Mem → List (List ℕ) → List ℕ → Mem × List (List ℕ)
  | m, tr :: trs, r :: rest =>
      if enable_grad then
        let q := heap_record enable_grad m trs rest
        (q.1, (tr ++ [r]) :: q.2)
      else
        let p := m.alloc (m.buf r)
        let q := heap_record enable_grad p.1 trs rest
        (q.1, (tr ++ [p.2]) :: q.2)
  | m, trs, _ => (m, trs)

/-- The main loop of `sample` over the memory (same structure as
`run_steps`, with explicit buffers). -/
def heap_run_steps (P : NumericPrims) (cfgs : List ModalityConfig) (df : DivFree)
    (p0 : Option (List ℚ)) (model : Model) (rand : RandSource)
    (t_disc : List ℚ) (n_steps : ℕ) (record : Bool) (grid : List ℚ) (eg : Bool) :
    List ℕ → Mem → List ℕ → List (List ℕ) →
    Mem × Except SErr (List ℕ × List (List ℕ))
  | [], m, refs, inters => (m, .ok (refs, inters))
  | i :: rest, m, refs, inters =>
      let t := t_disc.getD i 0
      let h := t_disc.getD (i + 1) 0 - t
      match model (refs.map m.buf) (List.replicate refs.length t) with
      | none => (m, .error .typeError)
      | some outs =>
          if outs.length = refs.length then
            match heap_update_all P df p0 t h (i == n_steps - 1) (rand i) 0 m cfgs refs outs with
            | (m1, .error e) => (m1, .error e)
            | (m1, .ok refs1) =>
                let q := if record ∧ t_disc.getD (i + 1) 0 ∈ grid
                         then heap_record eg m1 inters refs1
                         else (m1, inters)
                heap_run_steps P cfgs df p0 model rand t_disc n_steps record grid eg
                  rest q.1 refs1 q.2
          else (m, .error .typeError)

/-- `sample` over the memory: the caller passes the addresses of its
initial tensors; the result is the final memory together with either
the working references (and trajectory references, reordered as in the
source when a step size was given) or the error raised. -/
def heap_sample (P : NumericPrims) (S : MultimodalSolver) (rand : RandSource)
    (tqdmAvailable : Bool) (m : Mem) (x_init : List ℕ) (step_size : Option ℚ)
    (div_free : DivFree) (method : String) (time_grid : List ℚ)
    (return_intermediates enable_grad verbose : Bool) :
    Mem × Except SErr (List ℕ × List (List ℕ)) :=
  if x_init.length ≠ S.modality_configs.length then (m, .error .valueError)
  else if method ≠ "euler" then (m, .error .notImplementedError)
  else if div_free.nonzeroCheck ∧ S.source_distribution_p = none then
    (m, .error .assertionError)
  else
    match discretize time_grid step_size with
    | .error e => (m, .error e)
    | .ok (t_disc, n_steps) =>
        let grid :=
          if return_intermediates ∧ step_size.isSome then
            get_nearest_times time_grid t_disc
          else time_grid
        if verbose ∧ ¬tqdmAvailable then (m, .error .importError)
        else if verbose ∧ step_size.isNone then (m, .error .nameError)
        else
          let p := init_refs enable_grad m x_init
          let q := if return_intermediates
                   then init_inter_refs enable_grad p.1 x_init
                   else (p.1, [])
          match heap_run_steps P S.modality_configs div_free S.source_distribution_p
              S.model rand t_disc n_steps return_intermediates grid enable_grad
              (List.range n_steps) q.1 p.2 q.2 with
          | (mf, .error e) => (mf, .error e)
          | (mf, .ok (refs, inters)) =>
              if return_intermediates ∧ step_size.isSome then
                (mf, .ok (refs, inters.map (fun tr =>
                  (argsort time_grid).map (fun i => tr.getD i 0))))
              else (mf, .ok (refs, inters))

/-- Allocation preserves every buffer below the allocation bound. -/
theorem Mem.alloc_buf_lt (m : Mem) (v : MState) (a : ℕ) (h : a < m.next) :
    (m.alloc v).1.buf a = m.buf a := by
  simp only [Mem.alloc]
  rw [if_neg (by omega)]

/-- An in-place write at one address preserves every other address. -/
theorem Mem.write_buf_ne (m : Mem) (r : ℕ) (v : MState) (a : ℕ) (h : a ≠ r) :
    (m.write r v).buf a = m.buf a := by
  simp only [Mem.write]
  rw [if_neg h]

/-- Cloning the initial states only allocates: the bound grows, every
previously allocated buffer is untouched, and all working references
are fresh (at or above the old bound). -/
theorem init_refs_spec (n0 : ℕ) : ∀ (l : List ℕ) (m : Mem), n0 ≤ m.next →
    n0 ≤ (init_refs false m l).1.next ∧
    (∀ a, a < n0 → (init_refs false m l).1.buf a = m.buf a) ∧
    (∀ r ∈ (init_refs false m l).2, n0 ≤ r) := by
  intro l
  induction l with
  | nil =>
      intro m hm
      refine ⟨hm, fun a _ => rfl, by simp [init_refs]⟩
  | cons a rest ih =>
      intro m hm
      have hm1 : n0 ≤ (m.alloc (m.buf a)).1.next := by
        simp only [Mem.alloc]
        omega
      obtain ⟨h1, h2, h3⟩ := ih (m.alloc (m.buf a)).1 hm1
      simp only [init_refs, Bool.false_eq_true, if_false]
      refine ⟨h1, ?_, ?_⟩
      · intro b hb
        rw [h2 b hb]
        exact Mem.alloc_buf_lt m (m.buf a) b (by omega)
      · intro r hr
        rcases List.mem_cons.mp hr with hr | hr
        · subst hr
          simp only [Mem.alloc]
          exact hm
        · exact h3 r hr

/-- Cloning the initial trajectory entries only allocates. -/
theorem init_inter_refs_spec (n0 : ℕ) : ∀ (l : List ℕ) (m : Mem), n0 ≤ m.next →
    n0 ≤ (init_inter_refs false m l).1.next ∧
    (∀ a, a < n0 → (init_inter_refs false m l).1.buf a = m.buf a) := by
  intro l
  induction l with
  | nil =>
      intro m hm
      exact ⟨hm, fun a _ => rfl⟩
  | cons a rest ih =>
      intro m hm
      have hm1 : n0 ≤ (m.alloc (m.buf a)).1.next := by
        simp only [Mem.alloc]
        omega
      obtain ⟨h1, h2⟩ := ih (m.alloc (m.buf a)).1 hm1
      simp only [init_inter_refs, Bool.false_eq_true, if_false]
      refine ⟨h1, fun b hb => ?_⟩
      rw [h2 b hb]
      exact Mem.alloc_buf_lt m (m.buf a) b (by omega)

/-- One modality's heap update never shrinks the allocation bound,
never touches a buffer below `n0` when its working reference is at or
above `n0`, and returns a reference at or above `n0`. -/
theorem heap_update_modality_spec (P : NumericPrims) (cfg : ModalityConfig)
    (df : DivFree) (p0 : Option (List ℚ)) (t h : ℚ) (isFinal : Bool)
    (rand : ℕ → CoordRand) (n0 : ℕ) (m : Mem) (r : ℕ) (out : MOutput)
    (hm : n0 ≤ m.next) (hr : n0 ≤ r) :
    m.next ≤ (heap_update_modality P cfg df p0 t h isFinal rand m r out).1.next ∧
    (∀ a, a < n0 →
      (heap_update_modality P cfg df p0 t h isFinal rand m r out).1.buf a = m.buf a) ∧
    (∀ r1, (heap_update_modality P cfg df p0 t h isFinal rand m r out).2 = .ok r1 →
      n0 ≤ r1) := by
  rw [heap_update_modality]
  rcases update_modality P cfg df p0 t h isFinal rand (m.buf r) out with e | v
  · exact ⟨le_refl _, fun a _ => rfl, fun r1 hr1 => by simp at hr1⟩
  · rcases hmt : cfg.mtype with _ | _
    · refine ⟨by simp [Mem.alloc], ?_, ?_⟩
      · intro a ha
        exact Mem.alloc_buf_lt m v a (by omega)
      · intro r1 hr1
        simp only [Mem.alloc] at hr1
        cases hr1
        exact hm
    · rcases isFinal with _ | _
      · simp only [Bool.false_eq_true, if_false]
        refine ⟨by simp [Mem.write], ?_, ?_⟩
        · intro a ha
          exact Mem.write_buf_ne m r v a (by omega)
        · intro r1 hr1
          cases hr1
          exact hr
      · simp only [if_true]
        refine ⟨by simp [Mem.alloc], ?_, ?_⟩
        · intro a ha
          exact Mem.alloc_buf_lt m v a (by omega)
        · intro r1 hr1
          simp only [Mem.alloc] at hr1
          cases hr1
          exact hm

/-- The per-modality loop of one step never shrinks the allocation
bound, never touches a buffer below `n0` when all working references
are at or above `n0`, and returns references at or above `n0`. -/
theorem heap_update_all_spec (P : NumericPrims) (df : DivFree)
    (p0 : Option (List ℚ)) (t h : ℚ) (isFinal : Bool)
    (randi : ℕ → ℕ → CoordRand) (n0 : ℕ) :
    ∀ (cfgs : List ModalityConfig) (refs : List ℕ) (outs : List MOutput)
      (k : ℕ) (m : Mem), n0 ≤ m.next → (∀ r ∈ refs, n0 ≤ r) →
    m.next ≤ (heap_update_all P df p0 t h isFinal randi k m cfgs refs outs).1.next ∧
    (∀ a, a < n0 →
      (heap_update_all P df p0 t h isFinal randi k m cfgs refs outs).1.buf a = m.buf a) ∧
    (∀ rs, (heap_update_all P df p0 t h isFinal randi k m cfgs refs outs).2 = .ok rs →
      ∀ r ∈ rs, n0 ≤ r) := by
  intro cfgs
  induction cfgs with
  | nil =>
      intro refs outs k m hm hrefs
      refine ⟨le_refl _, fun a _ => rfl, ?_⟩
      intro rs hrs r hr
      simp only [heap_update_all] at hrs
      cases hrs
      simp at hr
  | cons cfg cfgs ih =>
      intro refs outs k m hm hrefs
      rcases refs with _ | ⟨r, refs⟩
      · exact ⟨le_refl _, fun a _ => rfl, fun rs hrs => by
          simp only [heap_update_all] at hrs
          cases hrs
          simp⟩
      · rcases outs with _ | ⟨out, outs⟩
        · exact ⟨le_refl _, fun a _ => rfl, fun rs hrs => by
            simp only [heap_update_all] at hrs
            cases hrs
            simp⟩
        · have hr0 : n0 ≤ r := hrefs r (by simp)
          obtain ⟨u1, u2, u3⟩ := heap_update_modality_spec P cfg df p0 t h isFinal
            (randi k) n0 m r out hm hr0
          simp only [heap_update_all]
          rcases hu : heap_update_modality P cfg df p0 t h isFinal (randi k) m r out
            with ⟨m1, e | r1⟩ <;> rw [hu] at u1 u2 u3 <;>
            dsimp only at u1 u2 u3 ⊢
          · exact ⟨u1, u2, fun rs hrs => by simp at hrs⟩
          · have hm1 : n0 ≤ m1.next := le_trans hm u1
            obtain ⟨v1, v2, v3⟩ := ih refs outs (k + 1) m1 hm1
              (fun r2 hr2 => hrefs r2 (by simp [hr2]))
            rcases hv : heap_update_all P df p0 t h isFinal randi (k + 1) m1 cfgs refs outs
              with ⟨m2, e2 | rs2⟩ <;> rw [hv] at v1 v2 v3 <;>
              dsimp only at v1 v2 v3 ⊢
            · exact ⟨le_trans u1 v1, fun a ha => by rw [v2 a ha, u2 a ha],
                fun rs hrs => by simp at hrs⟩
            · refine ⟨le_trans u1 v1, fun a ha => by rw [v2 a ha, u2 a ha], ?_⟩
              intro rs hrs
              cases hrs
              intro r3 hr3
              rcases List.mem_cons.mp hr3 with hr3 | hr3
              · subst hr3
                exact u3 _ rfl
              · exact v3 rs2 rfl r3 hr3

/-- Recording snapshots only reads and allocates: the allocation bound
never shrinks and no buffer below it is touched. -/
theorem heap_record_spec (eg : Bool) (n0 : ℕ) :
    ∀ (trs : List (List ℕ)) (refs : List ℕ) (m : Mem), n0 ≤ m.next →
    m.next ≤ (heap_record eg m trs refs).1.next ∧
    (∀ a, a < n0 → (heap_record eg m trs refs).1.buf a = m.buf a) := by
  intro trs
  induction trs with
  | nil =>
      intro refs m hm
      exact ⟨le_refl _, fun a _ => rfl⟩
  | cons tr trs ih =>
      intro refs m hm
      rcases refs with _ | ⟨r, refs⟩
      · exact ⟨le_refl _, fun a _ => rfl⟩
      · rcases eg with _ | _
        · simp only [heap_record, Bool.false_eq_true, if_false]
          have hm1 : n0 ≤ (m.alloc (m.buf r)).1.next := by
            simp only [Mem.alloc]
            omega
          obtain ⟨h1, h2⟩ := ih refs (m.alloc (m.buf r)).1 hm1
          refine ⟨le_trans (by simp [Mem.alloc]) h1, ?_⟩
          intro a ha
          rw [h2 a ha]
          exact Mem.alloc_buf_lt m (m.buf r) a (by omega)
        · simp only [heap_record, if_true]
          exact ih refs m hm

/-- The whole loop never shrinks the allocation bound and never writes
any buffer below `n0` as long as the working references are at or
above `n0` — whether it finishes or stops at an error. -/
theorem heap_run_steps_spec (P : NumericPrims) (cfgs : List ModalityConfig)
    (df : DivFree) (p0 : Option (List ℚ)) (model : Model) (rand : RandSource)
    (t_disc : List ℚ) (n_steps : ℕ) (record : Bool) (grid : List ℚ) (eg : Bool)
    (n0 : ℕ) :
    ∀ (steps : List ℕ) (m : Mem) (refs : List ℕ) (inters : List (List ℕ)),
      n0 ≤ m.next → (∀ r ∈ refs, n0 ≤ r) →
      n0 ≤ (heap_run_steps P cfgs df p0 model rand t_disc n_steps record grid eg
              steps m refs inters).1.next ∧
      (∀ a, a < n0 →
        (heap_run_steps P cfgs df p0 model rand t_disc n_steps record grid eg
          steps m refs inters).1.buf a = m.buf a) := by
  intro steps
  induction steps with
  | nil =>
      intro m refs inters hm _
      exact ⟨hm, fun a _ => rfl⟩
  | cons i rest ih =>
      intro m refs inters hm hrefs
      simp only [heap_run_steps]
      rcases hmod : model (refs.map m.buf)
          (List.replicate refs.length (t_disc.getD i 0)) with _ | outs <;> dsimp only
      · exact ⟨hm, fun a _ => rfl⟩
      · by_cases hlen : outs.length = refs.length
        · rw [if_pos hlen]
          obtain ⟨u1, u2, u3⟩ := heap_update_all_spec P df p0 (t_disc.getD i 0)
            (t_disc.getD (i + 1) 0 - t_disc.getD i 0) (i == n_steps - 1) (rand i) n0
            cfgs refs outs 0 m hm hrefs
          rcases hupd : heap_update_all P df p0 (t_disc.getD i 0)
              (t_disc.getD (i + 1) 0 - t_disc.getD i 0) (i == n_steps - 1) (rand i)
              0 m cfgs refs outs with ⟨m1, e | refs1⟩ <;>
            rw [hupd] at u1 u2 u3 <;> dsimp only at u1 u2 u3 ⊢
          · exact ⟨le_trans hm u1, u2⟩
          · have hrefs1 : ∀ r ∈ refs1, n0 ≤ r := u3 refs1 rfl
            have hm1 : n0 ≤ m1.next := le_trans hm u1
            by_cases hrec : (record = true ∧ t_disc.getD (i + 1) 0 ∈ grid)
            · rw [if_pos hrec]
              obtain ⟨w1, w2⟩ := heap_record_spec eg n0 inters refs1 m1 hm1
              obtain ⟨z1, z2⟩ := ih (heap_record eg m1 inters refs1).1 refs1
                (heap_record eg m1 inters refs1).2 (le_trans hm1 w1) hrefs1
              refine ⟨z1, fun a ha => ?_⟩
              rw [z2 a ha, w2 a ha, u2 a ha]
            · rw [if_neg hrec]
              obtain ⟨z1, z2⟩ := ih m1 refs1 inters hm1 hrefs1
              refine ⟨z1, fun a ha => ?_⟩
              rw [z2 a ha, u2 a ha]
        · rw [if_neg hlen]
          exact ⟨hm, fun a _ => rfl⟩

/-- The body of `heap_sample` after its prelude checks, for
`enable_grad=False`: whatever the loop does and however the successful
result is packaged (any continuation that keeps the final memory),
every buffer allocated before the call — in particular every caller
buffer — is unchanged. -/
theorem heap_tail_preserves (P : NumericPrims) (S : MultimodalSolver)
    (rand : RandSource) (df : DivFree) (t_disc : List ℚ) (n_steps : ℕ)
    (rec : Bool) (grid : List ℚ) (m : Mem) (x_init : List ℕ) (a : ℕ)
    (han : a < m.next)
    (ret : Mem → List ℕ → List (List ℕ) → Mem × Except SErr (List ℕ × List (List ℕ)))
    (hret : ∀ mf refs inters, (ret mf refs inters).1 = mf) :
    (match heap_run_steps P S.modality_configs df S.source_distribution_p S.model rand
        t_disc n_steps rec grid false (List.range n_steps)
        (if rec = true then init_inter_refs false (init_refs false m x_init).1 x_init
         else ((init_refs false m x_init).1, [])).1
        (init_refs false m x_init).2
        (if rec = true then init_inter_refs false (init_refs false m x_init).1 x_init
         else ((init_refs false m x_init).1, [])).2 with
     | (mf, Except.error e) => (mf, Except.error e)
     | (mf, Except.ok (refs, inters)) => ret mf refs inters).1.buf a = m.buf a := by
  obtain ⟨i1, i2, i3⟩ := init_refs_spec m.next x_init m (le_refl _)
  have hq : m.next ≤ (if rec = true
        then init_inter_refs false (init_refs false m x_init).1 x_init
        else ((init_refs false m x_init).1, [])).1.next ∧
      ∀ b, b < m.next →
        (if rec = true
          then init_inter_refs false (init_refs false m x_init).1 x_init
          else ((init_refs false m x_init).1, [])).1.buf b
          = (init_refs false m x_init).1.buf b := by
    by_cases hrec : rec = true
    · rw [if_pos hrec]
      exact init_inter_refs_spec m.next x_init (init_refs false m x_init).1 i1
    · rw [if_neg hrec]
      exact ⟨i1, fun b _ => rfl⟩
  obtain ⟨j1, j2⟩ := hq
  obtain ⟨z1, z2⟩ := heap_run_steps_spec P S.modality_configs df
    S.source_distribution_p S.model rand t_disc n_steps rec grid false m.next
    (List.range n_steps)
    (if rec = true then init_inter_refs false (init_refs false m x_init).1 x_init
     else ((init_refs false m x_init).1, [])).1
    (init_refs false m x_init).2
    (if rec = true then init_inter_refs false (init_refs false m x_init).1 x_init
     else ((init_refs false m x_init).1, [])).2 j1 i3
  rcases hz : heap_run_steps P S.modality_configs df S.source_distribution_p S.model
      rand t_disc n_steps rec grid false (List.range n_steps)
      (if rec = true then init_inter_refs false (init_refs false m x_init).1 x_init
       else ((init_refs false m x_init).1, [])).1
      (init_refs false m x_init).2
      (if rec = true then init_inter_refs false (init_refs false m x_init).1 x_init
       else ((init_refs false m x_init).1, [])).2
    with ⟨mf, e | ⟨refs, inters⟩⟩ <;> rw [hz] at z2 <;> dsimp only at z2 ⊢
  · rw [z2 a han, j2 a han, i2 a han]
  · rw [hret mf refs inters, z2 a han, j2 a han, i2 a han]

/-- C10: with `enable_grad=False` every working state is a fresh clone
of the caller's tensor, so whether `sample` returns normally or stops
at an error, the caller's initial buffers are unchanged: the continuous
wholesale replacements allocate fresh tensors and the discrete in-place
masked writes hit only the clones. -/
theorem heap_sample_preserves_caller_buffers (P : NumericPrims)
    (S : MultimodalSolver) (rand : RandSource) (tq : Bool) (m : Mem)
    (x_init : List ℕ) (ss : Option ℚ) (df : DivFree) (method : String)
    (tg : List ℚ) (rec verbose : Bool)
    (hv : ∀ a ∈ x_init, a < m.next) :
    ∀ a ∈ x_init,
      (heap_sample P S rand tq m x_init ss df method tg rec false verbose).1.buf a
        = m.buf a := by
  intro a ha
  have han : a < m.next := hv a ha
  rw [heap_sample]
  split
  · rfl
  split
  · rfl
  split
  · rfl
  split
  · rfl
  rename_i hmm t_disc n_steps heq
  split
  · split
    · rfl
    split
    · rfl
    exact heap_tail_preserves P S rand df t_disc n_steps rec
      (get_nearest_times tg t_disc) m x_init a han
      (fun mf refs inters => (mf, Except.ok (refs, inters.map (fun (tr : List ℕ) =>
        (argsort tg).map (fun i => tr.getD i 0)))))
      (fun _ _ _ => rfl)
  · split
    · rfl
    split
    · rfl
    exact heap_tail_preserves P S rand df t_disc n_steps rec tg m x_init a han
      (fun mf refs inters => (mf, Except.ok (refs, inters)))
      (fun _ _ _ => rfl)

/-- A one-buffer caller memory for concrete evaluation: address 0 holds
the initial tensor and the allocator starts at 1. -/
def wMem : Mem := ⟨fun _ => MState.cont [5], 1⟩

/-- Concrete instantiation of `heap_sample_preserves_caller_buffers`:
a full fixed-step run leaves the caller's buffer at address 0 exactly
as it was. -/
theorem heap_sample_preserves_caller_buffers_witness :
    (heap_sample evalPrims (contSolver 1) wRand true wMem [0] (some (1/2))
      (.const 0) "euler" [0, 1] false false false).1.buf 0 = wMem.buf 0 :=
  heap_sample_preserves_caller_buffers evalPrims (contSolver 1) wRand true wMem [0]
    (some (1/2)) (.const 0) "euler" [0, 1] false false (by decide) 0 (by decide)
